import Mathlib

/-!
Verification of the terminal raycaster `doom_v2.py`.

The development shallowly embeds the program's core: the tile grid and its
classification, the per-column ray marcher (the `while` loop at lines
216-291), the ceiling/floor projection (lines 297-306), the movement
commit rule (lines 138-159), and the hit-scan combat resolver
(lines 164-183).  Exact rational arithmetic stands in for Python floats;
the direction of a ray is passed as the pair `(c, s)` standing for
`(cos angle, sin angle)`, and the trigonometric/irrational parts of the
combat resolver are embedded over the reals.
-/

/-- A grid is a list of rows of tile characters, as the Python `MAP` is a
list of strings. -/
abbrev Grid := List (List Char)

/-- Characters of a row, for transcribing the Python string rows. -/
def rowOf (s : String) : List Char := s.data

/-- The map from the source (lines 10-27). -/
def MAP : Grid :=
  [ rowOf "########################################",
    rowOf "#......................................#",
    rowOf "#...###LLL#............................#",
    rowOf "#...#C...#............................P#",
    rowOf "#...#....D.........................#####",
    rowOf "#...######...........................###",
    rowOf "#....P...P............................##",
    rowOf "#....####...........................####",
    rowOf "#....#..#.............................##",
    rowOf "#....#C.#....###......................##",
    rowOf "#....####....#C#......................##",
    rowOf "#............###.....................###",
    rowOf "#...P................................P##",
    rowOf "#...#...#...#...#.....................##",
    rowOf "#......................................#",
    rowOf "########################################" ]

/-- Python `int()` truncation toward zero on a rational. -/
def truncQ (q : ℚ) : ℤ := if q < 0 then -⌊-q⌋ else ⌊q⌋

/-- The grid height `len(MAP)`. -/
def gridH (g : Grid) : ℕ := g.length

/-- The grid width `len(MAP[0])` (0 for an empty grid). -/
def gridW (g : Grid) : ℕ := (g.headD []).length

/-- Cell lookup guarded by the bounds test
`0 <= x < len(MAP[0]) and 0 <= y < len(MAP)`; `none` is out of bounds. -/
def cellAt (g : Grid) (x y : ℤ) : Option Char :=
  if 0 ≤ x ∧ 0 ≤ y ∧ x < (gridW g : ℤ) ∧ y < (gridH g : ℤ) then
    some ((g.getD y.toNat []).getD x.toNat ' ')
  else none

/-- The characters on which the ray marcher registers a hit
(the `elif` chain at lines 228, 261, 281, 288). -/
def blockingChar (ch : Char) : Bool :=
  ch == '#' || ch == 'L' || ch == 'P' || ch == 'C'

/-- Result of one marched ray: the flags of the source loop
(`distance_to_wall`, `hit_wall`, `hit_lower_wall`, `hit_pillar`,
`hit_corner`, `boundary`, `wall_orientation`). -/
structure RayResult where
  dist : ℚ
  hit : Bool
  lower : Bool
  pillar : Bool
  corner : Bool
  boundary : Bool
  orientation : ℕ
deriving DecidableEq, Repr

/-- The loop-exit state with no hit registered (`hit_wall` still false). -/
def noHitRes (d : ℚ) : RayResult := ⟨d, false, false, false, false, false, 0⟩

/-- The out-of-bounds exit: a hit with the distance clamped to the depth
limit (lines 225-227). -/
def oobRes (maxR : ℚ) : RayResult := ⟨maxR, true, false, false, false, false, 0⟩

/-- The marching increment `step_size = 0.02` (line 203). -/
def stepSize : ℚ := 1 / 50

/-- Count of orthogonally adjacent in-bounds wall cells (lines 250-256). -/
def adjWallCount (g : Grid) (mx my : ℤ) : ℕ :=
  (([((0 : ℤ), (1 : ℤ)), (1, 0), (0, -1), (-1, 0)]).filter
    (fun p => decide (cellAt g (mx + p.1) (my + p.2) = some '#'))).length

/-- The `wall_orientation` assignment (lines 236-243 and 269-276):
an `elif` chain testing the fractional x first, then the fractional y. -/
def orientOf (tx ty : ℚ) : ℕ :=
  if tx < 1 / 50 then 0
  else if 49 / 50 < tx then 0
  else if ty < 1 / 50 then 1
  else if 49 / 50 < ty then 1
  else 0

/-- The `boundary` flag (lines 246-247 and 278-279). -/
def boundaryOf (tx ty : ℚ) : Bool :=
  decide (tx < 1 / 50) || decide (49 / 50 < tx) ||
  decide (ty < 1 / 50) || decide (49 / 50 < ty)

/-- Hit classification of the four blocking tile kinds, from the branch
bodies at lines 228-291.  `tx`/`ty` are `ray - map` fractional offsets. -/
def classifyHit (g : Grid) (d rx ry : ℚ) (mx my : ℤ) (ch : Char) : RayResult :=
  let tx := rx - (mx : ℚ)
  let ty := ry - (my : ℚ)
  if ch == '#' then
    ⟨d, true, false, false, decide (3 ≤ adjWallCount g mx my),
      boundaryOf tx ty, orientOf tx ty⟩
  else if ch == 'L' then
    ⟨d, true, true, false, false, boundaryOf tx ty, orientOf tx ty⟩
  else if ch == 'P' then ⟨d, true, false, true, false, true, 0⟩
  else if ch == 'C' then ⟨d, true, false, false, true, true, 0⟩
  else noHitRes d

/-- The marching loop (lines 216-291), with fuel for termination.  Each
iteration entered while `d < maxR` advances by `stepSize`, recomputes the
ray point `origin + direction * distance`, truncates it to a cell and
either exits (out of bounds, or a blocking character) or continues. -/
def marchAux (g : Grid) (px py c s maxR : ℚ) : ℕ → ℚ → RayResult
  | 0, d => noHitRes d
  | fuel + 1, d =>
    if d < maxR then
      match cellAt g (truncQ (px + c * (d + stepSize)))
          (truncQ (py + s * (d + stepSize))) with
      | none => oobRes maxR
      | some ch =>
        if blockingChar ch then
          classifyHit g (d + stepSize) (px + c * (d + stepSize))
            (py + s * (d + stepSize)) (truncQ (px + c * (d + stepSize)))
            (truncQ (py + s * (d + stepSize))) ch
        else marchAux g px py c s maxR fuel (d + stepSize)
    else noHitRes d

/-- Enough fuel to march from distance `0` past `maxR`. -/
def rayFuel (maxR : ℚ) : ℕ := (⌈maxR * 50⌉).toNat + 1

/-- One full ray march from the origin, `(c, s)` standing for
`(cos angle, sin angle)`. -/
def castRay (g : Grid) (px py c s maxR : ℚ) : RayResult :=
  marchAux g px py c s maxR (rayFuel maxR) 0

/-- X coordinate of the ray point after `k` steps. -/
def pointX (px c : ℚ) (k : ℕ) : ℚ := px + c * ((k : ℚ) * stepSize)

/-- Y coordinate of the ray point after `k` steps. -/
def pointY (py s : ℚ) (k : ℕ) : ℚ := py + s * ((k : ℚ) * stepSize)

/-- The cell under the ray point after `k` steps (`none` out of bounds). -/
def stepCell (g : Grid) (px py c s : ℚ) (k : ℕ) : Option Char :=
  cellAt g (truncQ (pointX px c k)) (truncQ (pointY py s k))

/-- A cell the march passes through: in bounds and not blocking. -/
def passableCell : Option Char → Bool
  | none => false
  | some ch => !blockingChar ch

/-- The result the loop produces when it first stops at step `k`:
out-of-bounds clamps to `maxR`, a blocking character classifies the hit. -/
def hitResultAt (g : Grid) (px py c s maxR : ℚ) (k : ℕ) : RayResult :=
  match stepCell g px py c s k with
  | none => oobRes maxR
  | some ch =>
    classifyHit g ((k : ℚ) * stepSize) (pointX px c k) (pointY py s k)
      (truncQ (pointX px c k)) (truncQ (pointY py s k)) ch

/-- Movement passability (lines 141, 146, 152, 158): the destination cell
must be in bounds and must not be `'#'` or `'P'`. -/
def movePassable : Option Char → Bool
  | none => false
  | some ch => !(ch == '#' || ch == 'P')

/-- The movement commit rule: the candidate `(nx, ny)` replaces `(px, py)`
exactly when the truncated destination cell passes `movePassable`. -/
def tryMove (g : Grid) (px py nx ny : ℚ) : ℚ × ℚ :=
  if movePassable (cellAt g (truncQ nx) (truncQ ny)) then (nx, ny) else (px, py)

/-- Python float `%` with a positive modulus: `x - m * floor(x / m)`. -/
def pyModQ (x m : ℚ) : ℚ := x - m * (⌊x / m⌋ : ℚ)

/-- Ceiling and floor rows of a projected column (lines 297-306), with the
half-height factor for lower walls and the clamps applied. -/
def projectSpan (viewHeight : ℕ) (lowerWall : Bool) (d : ℚ) : ℤ × ℤ :=
  let vh : ℚ := (viewHeight : ℚ)
  let ceil0 : ℤ :=
    if lowerWall then truncQ (vh / 2 - vh / d * (1 / 2))
    else truncQ (vh / 2 - vh / d)
  let floor0 : ℤ :=
    if lowerWall then truncQ (vh / 2 + vh / d * (1 / 2))
    else truncQ (vh / 2 + vh / d)
  (max 0 ceil0, min ((viewHeight : ℤ) - 1) floor0)

/-- The angular offset of column `x` of `n` from the view direction, in
degrees: `(x / n) * FOV - FOV / 2` with `FOV = 70` (lines 195, 199). -/
def correctedAngleQ (x n : ℕ) : ℚ := (x : ℚ) / (n : ℚ) * 70 - 35

/-- The fisheye correction factor `cos(radians(corrected_angle))`
(line 200). -/
noncomputable def fisheyeCorrection (x n : ℕ) : ℝ :=
  Real.cos ((correctedAngleQ x n : ℝ) * Real.pi / 180)

/-- A grid with every door tile substituted by open floor. -/
def eraseDoors (g : Grid) : Grid :=
  g.map (fun row => row.map (fun ch => if ch == 'D' then '.' else ch))

def gridCorner : Grid := [[ '.', '.' ], [ '.', '#' ]]

def gridLower : Grid := [rowOf "......", rowOf "...L.."]

/-- An enemy entry `[x, y, alive, type]` of the `ENEMIES` list
(lines 29-39): type 0 = normal, 1 = fast, 2 = strong. -/
structure Enemy where
  x : ℚ
  y : ℚ
  alive : Bool
  type : ℕ
deriving DecidableEq, Repr

/-- The enemy roster from the source (lines 31-39). -/
def ENEMIES : List Enemy :=
  [⟨5, 3, true, 0⟩, ⟨10, 5, true, 0⟩, ⟨8, 8, true, 1⟩, ⟨15, 7, true, 0⟩,
   ⟨12, 10, true, 2⟩, ⟨18, 8, true, 1⟩, ⟨20, 12, true, 0⟩]

/-- Euclidean distance from the player to an enemy (lines 44-46, 173). -/
noncomputable def enemyDist (px py : ℝ) (e : Enemy) : ℝ :=
  Real.sqrt (((e.x : ℝ) - px) ^ 2 + ((e.y : ℝ) - py) ^ 2)

/-- Python float `%` with a positive modulus, over the reals. -/
noncomputable def pyModR (x m : ℝ) : ℝ := x - m * (⌊x / m⌋ : ℝ)

/-- The bearing `degrees(atan2(ey - py, ex - px))` (line 174); `atan2 y x` is the
argument of the complex number `x + y i`. -/
noncomputable def angleToEnemy (px py : ℝ) (e : Enemy) : ℝ :=
  Complex.arg ⟨(e.x : ℝ) - px, (e.y : ℝ) - py⟩ * 180 / Real.pi

/-- The wrapped angular difference
`(angle_to_enemy - player_angle + 180) % 360 - 180` (line 175). -/
noncomputable def angleDiffTo (px py ang : ℝ) (e : Enemy) : ℝ :=
  pyModR (angleToEnemy px py e - ang + 180) 360 - 180

/-- Per-class hit factor `1.0 / 0.7 / 0.5` (line 179). -/
noncomputable def classFactor (t : ℕ) : ℝ :=
  if t = 0 then 1 else if t = 1 then 7 / 10 else 1 / 2

/-- Hit probability `(1 - dist/DEPTH * 0.8) * classFactor` (lines
178-179). -/
noncomputable def hitChance (px py : ℝ) (e : Enemy) : ℝ :=
  (1 - enemyDist px py e / 16 * (8 / 10)) * classFactor e.type

/-- The target test of line 177: within half the 70-degree FOV and closer
than `DEPTH = 16`. -/
def validTarget (px py ang : ℝ) (e : Enemy) : Prop :=
  |angleDiffTo px py ang e| < 35 ∧ enemyDist px py e < 16

/-- An enemy the scan draws a random number for: alive and a valid
target (lines 172, 177, 180). -/
def considered (px py ang : ℝ) (e : Enemy) : Prop :=
  e.alive = true ∧ validTarget px py ang e

open Classical in
/-- The hit-scan loop of lines 171-183: enemies in enumeration order, one
uniform draw (`rng i`, consumed in order) per considered enemy, first
success kills that enemy, adds `100 * (type + 1)` and stops. -/
noncomputable def shootScan (px py ang : ℝ) (rng : ℕ → ℝ) :
    List Enemy → ℕ → List Enemy × ℤ
  | [], _ => ([], 0)
  | e :: rest, i =>
    if e.alive then
      if validTarget px py ang e then
        if rng i < hitChance px py e then
          ({ e with alive := false } :: rest, 100 * ((e.type : ℤ) + 1))
        else
          ((e :: (shootScan px py ang rng rest (i + 1)).1),
            (shootScan px py ang rng rest (i + 1)).2)
      else
        ((e :: (shootScan px py ang rng rest i).1),
          (shootScan px py ang rng rest i).2)
    else
      ((e :: (shootScan px py ang rng rest i).1),
        (shootScan px py ang rng rest i).2)

open Classical in
/-- Number of considered enemies in a prefix of the scan (how many random
draws the prefix consumes). -/
noncomputable def consideredCount (px py ang : ℝ) : List Enemy → ℕ
  | [] => 0
  | e :: rest =>
    (if considered px py ang e then 1 else 0) + consideredCount px py ang rest

/-- Position `j` of the scan is a success: the enemy there is considered
and its random draw (the one after all draws of the prefix) beats the hit
chance. -/
def targetSuccess (px py ang : ℝ) (rng : ℕ → ℝ) (es : List Enemy) (j : ℕ) :
    Prop :=
  ∃ e, es.get? j = some e ∧ considered px py ang e ∧
    rng (consideredCount px py ang (es.take j)) < hitChance px py e

/-- Mutable state of the game loop: player position and facing, health,
ammo, score (lines 83-88) and the enemy list. -/
structure State where
  px : ℚ
  py : ℚ
  angle : ℚ
  health : ℤ
  ammo : ℤ
  score : ℤ
  enemies : List Enemy
deriving DecidableEq, Repr

/-- The initial state (lines 83-88 and 31-39). -/
def initState : State := ⟨2, 2, 0, 100, 50, 0, ENEMIES⟩

/-- A key intent: a translation carrying its displacement (the code
derives `(dx, dy)` from `cos`/`sin` of the facing angle, lines 139-159),
a turn (lines 160-163), or a shot (lines 164-183). -/
inductive Intent where
  | move (dx dy : ℚ)
  | turn (dA : ℚ)
  | shoot
deriving DecidableEq, Repr

/-- One intent applied to the state: movement through `tryMove` on the
game map, turning mod 360, shooting guarded by `ammo > 0` (line 165)
consuming one ammo and running the hit scan. -/
noncomputable def stepIntent (st : State) (rng : ℕ → ℝ) : Intent → State
  | .move dx dy =>
    let p := tryMove MAP st.px st.py (st.px + dx) (st.py + dy)
    { st with px := p.1, py := p.2 }
  | .turn dA => { st with angle := pyModQ (st.angle + dA) 360 }
  | .shoot =>
    if 0 < st.ammo then
      let out :=
        shootScan (st.px : ℝ) (st.py : ℝ) (st.angle : ℝ) rng st.enemies 0
      { st with ammo := st.ammo - 1, score := st.score + out.2,
                enemies := out.1 }
    else st

/-- A whole sequence of intents, each with its stream of random draws. -/
noncomputable def runIntents (st : State) (ops : List (Intent × (ℕ → ℝ))) :
    State :=
  ops.foldl (fun acc p => stepIntent acc p.2 p.1) st

/-- A constant random stream, for concrete instantiations. -/
noncomputable def rng0 : ℕ → ℝ := fun _ => 0

/-- A player state with full ammo and no enemies. -/
def stateEmpty : State := ⟨2, 2, 0, 100, 50, 0, []⟩

lemma stepSize_pos : 0 < stepSize := by norm_num [stepSize]

lemma step_cast (k : ℕ) :
    (k : ℚ) * stepSize + stepSize = ((k + 1 : ℕ) : ℚ) * stepSize := by
  push_cast
  ring

lemma marchAux_stop {g : Grid} {px py c s maxR : ℚ} {k : ℕ} (fuel : ℕ)
    (hd : ¬ (k : ℚ) * stepSize < maxR) :
    marchAux g px py c s maxR (fuel + 1) ((k : ℚ) * stepSize) =
      noHitRes ((k : ℚ) * stepSize) := by
  simp only [marchAux]
  rw [if_neg hd]

lemma marchAux_succ_none {g : Grid} {px py c s maxR : ℚ} {k : ℕ} (fuel : ℕ)
    (hd : (k : ℚ) * stepSize < maxR)
    (hcell : stepCell g px py c s (k + 1) = none) :
    marchAux g px py c s maxR (fuel + 1) ((k : ℚ) * stepSize) = oobRes maxR := by
  have hc2 : cellAt g (truncQ (px + c * (((k + 1 : ℕ) : ℚ) * stepSize)))
      (truncQ (py + s * (((k + 1 : ℕ) : ℚ) * stepSize))) = none := hcell
  simp only [marchAux]
  rw [if_pos hd, step_cast, hc2]

lemma marchAux_succ_block {g : Grid} {px py c s maxR : ℚ} {k : ℕ} {ch : Char}
    (fuel : ℕ) (hd : (k : ℚ) * stepSize < maxR)
    (hcell : stepCell g px py c s (k + 1) = some ch)
    (hb : blockingChar ch = true) :
    marchAux g px py c s maxR (fuel + 1) ((k : ℚ) * stepSize) =
      hitResultAt g px py c s maxR (k + 1) := by
  have hc2 : cellAt g (truncQ (px + c * (((k + 1 : ℕ) : ℚ) * stepSize)))
      (truncQ (py + s * (((k + 1 : ℕ) : ℚ) * stepSize))) = some ch := hcell
  simp only [marchAux]
  rw [if_pos hd, step_cast, hc2]
  simp only [hb, if_true]
  simp only [hitResultAt]
  rw [hcell]
  rfl

lemma marchAux_succ_pass {g : Grid} {px py c s maxR : ℚ} {k : ℕ} {ch : Char}
    (fuel : ℕ) (hd : (k : ℚ) * stepSize < maxR)
    (hcell : stepCell g px py c s (k + 1) = some ch)
    (hb : blockingChar ch = false) :
    marchAux g px py c s maxR (fuel + 1) ((k : ℚ) * stepSize) =
      marchAux g px py c s maxR fuel (((k + 1 : ℕ) : ℚ) * stepSize) := by
  have hc2 : cellAt g (truncQ (px + c * (((k + 1 : ℕ) : ℚ) * stepSize)))
      (truncQ (py + s * (((k + 1 : ℕ) : ℚ) * stepSize))) = some ch := hcell
  simp only [marchAux]
  rw [if_pos hd, step_cast, hc2]
  simp only [hb, Bool.false_eq_true, if_false]

lemma mul_step_mono {a b : ℕ} (h : a ≤ b) :
    (a : ℚ) * stepSize ≤ (b : ℚ) * stepSize := by
  apply mul_le_mul_of_nonneg_right _ (le_of_lt stepSize_pos)
  exact_mod_cast h

/-- Every march from distance `k * stepSize` with enough fuel either stops
at the first non-passable step cell `m` after `k` (with the loop-entry
guard `(m-1) * stepSize < maxR`), or runs out of range having passed only
passable cells. -/
lemma marchAux_char (g : Grid) (px py c s maxR : ℚ) :
    ∀ fuel k, maxR ≤ ((k + fuel : ℕ) : ℚ) * stepSize →
    (∃ m, k < m ∧
        (∀ j, k < j → j < m → passableCell (stepCell g px py c s j) = true) ∧
        ((m - 1 : ℕ) : ℚ) * stepSize < maxR ∧
        passableCell (stepCell g px py c s m) = false ∧
        marchAux g px py c s maxR fuel ((k : ℚ) * stepSize) =
          hitResultAt g px py c s maxR m) ∨
    ((∀ j, k < j → ((j - 1 : ℕ) : ℚ) * stepSize < maxR →
        passableCell (stepCell g px py c s j) = true) ∧
      ∃ m, k ≤ m ∧ maxR ≤ (m : ℚ) * stepSize ∧
        marchAux g px py c s maxR fuel ((k : ℚ) * stepSize) =
          noHitRes ((m : ℚ) * stepSize)) := by
  intro fuel
  induction fuel with
  | zero =>
    intro k hk
    right
    have hk0 : maxR ≤ (k : ℚ) * stepSize := by simpa using hk
    refine ⟨?_, k, le_refl k, hk0, rfl⟩
    intro j hj hlt
    exfalso
    have h1 : k ≤ j - 1 := by omega
    have h2 := mul_step_mono h1
    linarith
  | succ fuel ih =>
    intro k hk
    by_cases hd : (k : ℚ) * stepSize < maxR
    · cases hcell : stepCell g px py c s (k + 1) with
      | none =>
        left
        refine ⟨k + 1, Nat.lt_succ_self k, ?_, ?_, ?_, ?_⟩
        · intro j hj hlt
          omega
        · simpa using hd
        · rw [hcell]
          rfl
        · rw [marchAux_succ_none fuel hd hcell, hitResultAt, hcell]
      | some ch =>
        by_cases hb : blockingChar ch = true
        · left
          refine ⟨k + 1, Nat.lt_succ_self k, ?_, ?_, ?_, ?_⟩
          · intro j hj hlt
            omega
          · simpa using hd
          · rw [hcell]
            simp [passableCell, hb]
          · exact marchAux_succ_block fuel hd hcell hb
        · have hb' : blockingChar ch = false := by
            simpa using hb
          have hpass : passableCell (stepCell g px py c s (k + 1)) = true := by
            rw [hcell]
            simp [passableCell, hb']
          have hk' : maxR ≤ (((k + 1) + fuel : ℕ) : ℚ) * stepSize := by
            have : (k + 1) + fuel = k + (fuel + 1) := by omega
            rw [this]
            exact hk
          have hrec := marchAux_succ_pass fuel hd hcell hb'
          rcases ih (k + 1) hk' with h | h
          · left
            obtain ⟨m, hm1, hm2, hm3, hm4, hm5⟩ := h
            refine ⟨m, by omega, ?_, hm3, hm4, ?_⟩
            · intro j hj hlt
              rcases Nat.lt_or_ge (k + 1) j with hj2 | hj2
              · exact hm2 j hj2 hlt
              · have : j = k + 1 := by omega
                rw [this]
                exact hpass
            · rw [hrec]
              exact hm5
          · right
            obtain ⟨hall, m, hm1, hm2, hm3⟩ := h
            refine ⟨?_, m, by omega, hm2, ?_⟩
            · intro j hj hlt
              rcases Nat.lt_or_ge (k + 1) j with hj2 | hj2
              · exact hall j hj2 hlt
              · have : j = k + 1 := by omega
                rw [this]
                exact hpass
            · rw [hrec]
              exact hm3
    · right
      have hd' : maxR ≤ (k : ℚ) * stepSize := le_of_not_lt hd
      refine ⟨?_, k, le_refl k, hd', marchAux_stop fuel hd⟩
      intro j hj hlt
      exfalso
      have h1 : k ≤ j - 1 := by omega
      have h2 := mul_step_mono h1
      linarith

lemma rayFuel_enough (maxR : ℚ) :
    maxR ≤ ((0 + rayFuel maxR : ℕ) : ℚ) * stepSize := by
  have hr1 : 0 < rayFuel maxR := Nat.succ_pos _
  have hpos : (0 : ℚ) < ((rayFuel maxR : ℕ) : ℚ) * stepSize := by
    apply mul_pos _ stepSize_pos
    exact_mod_cast hr1
  rcases le_or_lt maxR 0 with hm | hm
  · simp only [Nat.zero_add]
    linarith
  · simp only [Nat.zero_add, rayFuel]
    have h2 : (0 : ℤ) ≤ ⌈maxR * 50⌉ := Int.ceil_nonneg (by positivity)
    have h3 : ((⌈maxR * 50⌉.toNat : ℕ) : ℚ) = ((⌈maxR * 50⌉ : ℤ) : ℚ) := by
      exact_mod_cast congrArg (fun z : ℤ => (z : ℚ)) (Int.toNat_of_nonneg h2)
    have h1 : (maxR * 50 : ℚ) ≤ ((⌈maxR * 50⌉ : ℤ) : ℚ) := Int.le_ceil _
    have hstep : stepSize = 1 / 50 := rfl
    push_cast
    rw [h3, hstep]
    linarith

/-- The full march out of `castRay`: either a first-stop step `m ≥ 1`, or
out of range through passable cells only. -/
lemma castRay_char (g : Grid) (px py c s maxR : ℚ) :
    (∃ m, 0 < m ∧
        (∀ j, 0 < j → j < m → passableCell (stepCell g px py c s j) = true) ∧
        ((m - 1 : ℕ) : ℚ) * stepSize < maxR ∧
        passableCell (stepCell g px py c s m) = false ∧
        castRay g px py c s maxR = hitResultAt g px py c s maxR m) ∨
    ((∀ j, 0 < j → ((j - 1 : ℕ) : ℚ) * stepSize < maxR →
        passableCell (stepCell g px py c s j) = true) ∧
      ∃ m, maxR ≤ (m : ℚ) * stepSize ∧
        castRay g px py c s maxR = noHitRes ((m : ℚ) * stepSize)) := by
  have he : marchAux g px py c s maxR (rayFuel maxR) (((0 : ℕ) : ℚ) * stepSize) =
      castRay g px py c s maxR := by
    rw [castRay]
    norm_num
  rcases marchAux_char g px py c s maxR (rayFuel maxR) 0 (rayFuel_enough maxR)
    with h | h
  · left
    obtain ⟨m, hm1, hm2, hm3, hm4, hm5⟩ := h
    exact ⟨m, hm1, hm2, hm3, hm4, by rw [← he, hm5]⟩
  · right
    obtain ⟨hall, m, _, hm2, hm3⟩ := h
    exact ⟨hall, m, hm2, by rw [← he, hm3]⟩

lemma firstStop_unique {g : Grid} {px py c s : ℚ} {m1 m2 : ℕ}
    (h1a : ∀ j, 0 < j → j < m1 → passableCell (stepCell g px py c s j) = true)
    (h1b : passableCell (stepCell g px py c s m1) = false) (h1c : 0 < m1)
    (h2a : ∀ j, 0 < j → j < m2 → passableCell (stepCell g px py c s j) = true)
    (h2b : passableCell (stepCell g px py c s m2) = false) (h2c : 0 < m2) :
    m1 = m2 := by
  rcases Nat.lt_trichotomy m1 m2 with h | h | h
  · have := h2a m1 h1c h
    rw [h1b] at this
    exact absurd this (by simp)
  · exact h
  · have := h1a m2 h2c h
    rw [h2b] at this
    exact absurd this (by simp)

lemma classifyHit_dist (g : Grid) (d rx ry : ℚ) (mx my : ℤ) (ch : Char) :
    (classifyHit g d rx ry mx my ch).dist = d := by
  simp only [classifyHit]
  split_ifs <;> rfl

lemma classifyHit_hit (g : Grid) (d rx ry : ℚ) (mx my : ℤ) {ch : Char}
    (hb : blockingChar ch = true) :
    (classifyHit g d rx ry mx my ch).hit = true := by
  simp only [blockingChar, Bool.or_eq_true, beq_iff_eq] at hb
  rcases hb with ((h | h) | h) | h <;> subst h <;> rfl

/-- C1: for every origin, direction and grid, the ray march terminates in
one of the three described ways: out of range with no kind flag set and
distance at least `maxRange`; an out-of-bounds cell at some step `k ≥ 1`
reached through passable cells, a hit with distance clamped to exactly
`maxRange`; or a non-passable tile (`#`, `L`, `P`, `C`) at step `k`, a
hit classified by `classifyHit` whose distance is the distance
`k * stepSize` traveled at that step.  The ray point of step `k` is
`origin + (k * stepSize) * (c, s)` truncated to an integer cell
(`stepCell`). -/
theorem ray_march_terminal_cases (g : Grid) (px py c s maxR : ℚ) :
    (castRay g px py c s maxR = noHitRes (castRay g px py c s maxR).dist ∧
      maxR ≤ (castRay g px py c s maxR).dist) ∨
    (∃ k : ℕ, 1 ≤ k ∧ ((k - 1 : ℕ) : ℚ) * stepSize < maxR ∧
      (∀ j, 1 ≤ j → j < k → passableCell (stepCell g px py c s j) = true) ∧
      ((stepCell g px py c s k = none ∧
          castRay g px py c s maxR = oobRes maxR) ∨
       (∃ ch, stepCell g px py c s k = some ch ∧ blockingChar ch = true ∧
          castRay g px py c s maxR =
            classifyHit g ((k : ℚ) * stepSize) (pointX px c k) (pointY py s k)
              (truncQ (pointX px c k)) (truncQ (pointY py s k)) ch ∧
          (castRay g px py c s maxR).dist = (k : ℚ) * stepSize ∧
          (castRay g px py c s maxR).hit = true))) := by
  rcases castRay_char g px py c s maxR with h | h
  · right
    obtain ⟨m, hm1, hm2, hm3, hm4, hm5⟩ := h
    refine ⟨m, hm1, hm3, hm2, ?_⟩
    cases hcell : stepCell g px py c s m with
    | none =>
      left
      refine ⟨rfl, ?_⟩
      rw [hm5, hitResultAt, hcell]
    | some ch =>
      right
      have hb : blockingChar ch = true := by
        rw [hcell] at hm4
        simpa [passableCell] using hm4
      have hres : castRay g px py c s maxR =
          classifyHit g ((m : ℚ) * stepSize) (pointX px c m) (pointY py s m)
            (truncQ (pointX px c m)) (truncQ (pointY py s m)) ch := by
        rw [hm5, hitResultAt, hcell]
      refine ⟨ch, rfl, hb, hres, ?_, ?_⟩
      · rw [hres, classifyHit_dist]
      · rw [hres, classifyHit_hit _ _ _ _ _ _ hb]
  · left
    obtain ⟨_, m, hm2, hm3⟩ := h
    rw [hm3]
    exact ⟨rfl, hm2⟩

/-- C6 counterexample: a march whose first stop is the out-of-bounds clamp
changes its distance when the depth limit grows: with origin `(-5, -5)`
and direction `(1, 0)` on the game map, the result for `maxRange = 1` is a
hit (not out of range), yet the result for `maxRange = 2` differs. -/
theorem depth_monotonicity_cex :
    (castRay MAP (-5) (-5) 1 0 1).hit = true ∧
    castRay MAP (-5) (-5) 1 0 2 ≠ castRay MAP (-5) (-5) 1 0 1 := by
  constructor
  · with_unfolding_all decide
  · with_unfolding_all decide

/-- C6 (amended): growing the depth limit never changes a non-out-of-range
result, except that a hit produced by the out-of-bounds clamp keeps its
shape but has its distance clamped to the respective `maxRange`. -/
theorem depth_monotonicity (g : Grid) (px py c s maxR1 maxR2 : ℚ)
    (hlt : maxR1 < maxR2) (hhit : (castRay g px py c s maxR1).hit = true) :
    castRay g px py c s maxR2 = castRay g px py c s maxR1 ∨
    (castRay g px py c s maxR1 = oobRes maxR1 ∧
      castRay g px py c s maxR2 = oobRes maxR2) := by
  rcases castRay_char g px py c s maxR1 with h1 | h1
  · obtain ⟨m1, h1c, h1a, h1d, h1b, h1res⟩ := h1
    rcases castRay_char g px py c s maxR2 with h2 | h2
    · obtain ⟨m2, h2c, h2a, _, h2b, h2res⟩ := h2
      have hm : m1 = m2 := firstStop_unique h1a h1b h1c h2a h2b h2c
      subst hm
      cases hcell : stepCell g px py c s m1 with
      | none =>
        right
        constructor
        · rw [h1res, hitResultAt, hcell]
        · rw [h2res, hitResultAt, hcell]
      | some ch =>
        left
        rw [h1res, h2res, hitResultAt, hitResultAt, hcell]
    · exfalso
      obtain ⟨hall, _⟩ := h2
      have := hall m1 h1c (lt_trans h1d hlt)
      rw [h1b] at this
      exact absurd this (by simp)
  · exfalso
    obtain ⟨_, m, _, hm3⟩ := h1
    rw [hm3] at hhit
    exact absurd hhit (by simp [noHitRes])

/-- C6 witness: the amended statement applied to a concrete blocking hit
(the lower wall of `gridLower` at distance `1/2`, within both limits). -/
theorem depth_monotonicity_witness :
    castRay gridLower (5/2) (3/2) 1 0 16 = castRay gridLower (5/2) (3/2) 1 0 1 ∨
    (castRay gridLower (5/2) (3/2) 1 0 1 = oobRes 1 ∧
      castRay gridLower (5/2) (3/2) 1 0 16 = oobRes 16) :=
  depth_monotonicity gridLower (5/2) (3/2) 1 0 1 16 (by norm_num)
    (by with_unfolding_all decide)

lemma castRay_stop_at {g : Grid} {px py c s maxR : ℚ} {k : ℕ} (hk : 0 < k)
    (hguard : ((k - 1 : ℕ) : ℚ) * stepSize < maxR)
    (hpass : ∀ j, 0 < j → j < k → passableCell (stepCell g px py c s j) = true)
    (hstop : passableCell (stepCell g px py c s k) = false) :
    castRay g px py c s maxR = hitResultAt g px py c s maxR k := by
  rcases castRay_char g px py c s maxR with h | h
  · obtain ⟨m, hm1, hm2, _, hm4, hm5⟩ := h
    have : m = k := firstStop_unique hm2 hm4 hm1 hpass hstop hk
    rwa [this] at hm5
  · exfalso
    obtain ⟨hall, _⟩ := h
    have := hall k hk hguard
    rw [hstop] at this
    exact absurd this (by simp)

lemma orientOf_eq_zero {tx ty : ℚ} (h : tx < 1 / 50 ∨ 49 / 50 < tx) :
    orientOf tx ty = 0 := by
  rcases h with h | h
  · rw [orientOf, if_pos h]
  · rw [orientOf, if_neg (by linarith), if_pos h]

lemma orientOf_eq_one {tx ty : ℚ} (hx : ¬(tx < 1 / 50 ∨ 49 / 50 < tx))
    (hy : ty < 1 / 50 ∨ 49 / 50 < ty) : orientOf tx ty = 1 := by
  push_neg at hx
  rw [orientOf, if_neg (not_lt.2 hx.1), if_neg (not_lt.2 hx.2)]
  rcases hy with h | h
  · rw [if_pos h]
  · rw [if_neg (by linarith), if_pos h]

lemma boundaryOf_iff {tx ty : ℚ} :
    boundaryOf tx ty = true ↔
      (tx < 1 / 50 ∨ 49 / 50 < tx ∨ ty < 1 / 50 ∨ 49 / 50 < ty) := by
  simp only [boundaryOf, Bool.or_eq_true, decide_eq_true_eq]
  tauto

lemma classifyHit_wall (g : Grid) (d rx ry : ℚ) (mx my : ℤ) :
    classifyHit g d rx ry mx my '#' =
      ⟨d, true, false, false, decide (3 ≤ adjWallCount g mx my),
        boundaryOf (rx - (mx : ℚ)) (ry - (my : ℚ)),
        orientOf (rx - (mx : ℚ)) (ry - (my : ℚ))⟩ := rfl

lemma classifyHit_lower (g : Grid) (d rx ry : ℚ) (mx my : ℤ) :
    classifyHit g d rx ry mx my 'L' =
      ⟨d, true, true, false, false,
        boundaryOf (rx - (mx : ℚ)) (ry - (my : ℚ)),
        orientOf (rx - (mx : ℚ)) (ry - (my : ℚ))⟩ := rfl

lemma classifyHit_pillar (g : Grid) (d rx ry : ℚ) (mx my : ℤ) :
    classifyHit g d rx ry mx my 'P' =
      ⟨d, true, false, true, false, true, 0⟩ := rfl

lemma classifyHit_corner (g : Grid) (d rx ry : ℚ) (mx my : ℤ) :
    classifyHit g d rx ry mx my 'C' =
      ⟨d, true, false, false, true, true, 0⟩ := rfl

/-- C2 counterexample: a ray that enters the wall cell exactly at its
corner, so both fractional offsets are below the 0.02 tolerance.  The hit
is a plain wall hit at step 50 whose fractional y is within tolerance, yet
the orientation is 0 (vertical), not 1 (horizontal): the fractional-x test
shadows the fractional-y test. -/
theorem wall_orient_corner_cex :
    castRay gridCorner (1/5) (2/5) (4/5) (3/5) 16 =
      ⟨1, true, false, false, false, true, 0⟩ ∧
    pointY (2/5) (3/5) 50 - (truncQ (pointY (2/5) (3/5) 50) : ℚ) < 1 / 50 ∧
    stepCell gridCorner (1/5) (2/5) (4/5) (3/5) 50 = some '#' ∧
    (castRay gridCorner (1/5) (2/5) (4/5) (3/5) 16).orientation ≠ 1 := by
  refine ⟨?_, ?_, ?_, ?_⟩ <;> with_unfolding_all decide

/-- C2 (amended): on a Wall or LowerWall hit the orientation is vertical
when the fractional x is within the 0.02 edge tolerance, horizontal when
the fractional y is within tolerance *and the fractional x is not* (the x
test has priority), the boundary flag is set exactly when some fractional
coordinate is within tolerance, a Wall hit is flagged as a junction exactly
when at least 3 of the 4 in-bounds orthogonal neighbours are Wall, and
Pillar / CornerDecoration hits always set the boundary flag and leave the
orientation at its default. -/
theorem wall_hit_classification (g : Grid) (px py c s maxR : ℚ) (k : ℕ)
    (ch : Char) (hk : 0 < k)
    (hguard : ((k - 1 : ℕ) : ℚ) * stepSize < maxR)
    (hpass : ∀ j, j < k → 0 < j → passableCell (stepCell g px py c s j) = true)
    (hcell : stepCell g px py c s k = some ch)
    (hb : blockingChar ch = true) :
    let r := castRay g px py c s maxR
    let tx := pointX px c k - (truncQ (pointX px c k) : ℚ)
    let ty := pointY py s k - (truncQ (pointY py s k) : ℚ)
    ((ch = '#' ∨ ch = 'L') →
      ((tx < 1 / 50 ∨ 49 / 50 < tx) → r.orientation = 0) ∧
      ((¬(tx < 1 / 50 ∨ 49 / 50 < tx) ∧ (ty < 1 / 50 ∨ 49 / 50 < ty)) →
        r.orientation = 1) ∧
      (r.boundary = true ↔
        (tx < 1 / 50 ∨ 49 / 50 < tx ∨ ty < 1 / 50 ∨ 49 / 50 < ty))) ∧
    (ch = '#' → (r.corner = true ↔
      3 ≤ adjWallCount g (truncQ (pointX px c k)) (truncQ (pointY py s k)))) ∧
    (ch = 'L' → r.corner = false) ∧
    ((ch = 'P' ∨ ch = 'C') → r.boundary = true ∧ r.orientation = 0) := by
  intro r tx ty
  have hstop : passableCell (stepCell g px py c s k) = false := by
    rw [hcell]
    simp [passableCell, hb]
  have hr : r = classifyHit g ((k : ℚ) * stepSize) (pointX px c k)
      (pointY py s k) (truncQ (pointX px c k)) (truncQ (pointY py s k)) ch := by
    have h0 := castRay_stop_at hk hguard (fun j h1 h2 => hpass j h2 h1) hstop
    rw [hitResultAt, hcell] at h0
    exact h0
  refine ⟨?_, ?_, ?_, ?_⟩
  · rintro (hch | hch) <;> subst hch
    · rw [classifyHit_wall] at hr
      rw [hr]
      exact ⟨fun h => orientOf_eq_zero h, fun h => orientOf_eq_one h.1 h.2,
        boundaryOf_iff⟩
    · rw [classifyHit_lower] at hr
      rw [hr]
      exact ⟨fun h => orientOf_eq_zero h, fun h => orientOf_eq_one h.1 h.2,
        boundaryOf_iff⟩
  · intro hch
    subst hch
    rw [classifyHit_wall] at hr
    rw [hr]
    simp
  · intro hch
    subst hch
    rw [classifyHit_lower] at hr
    rw [hr]
  · rintro (hch | hch) <;> subst hch
    · rw [classifyHit_pillar] at hr
      rw [hr]
      exact ⟨rfl, rfl⟩
    · rw [classifyHit_corner] at hr
      rw [hr]
      exact ⟨rfl, rfl⟩

/-- C2 witness: the amended classification applied to the lower-wall hit
of `gridLower` at step 25 (distance `1/2`). -/
theorem wall_hit_classification_witness :
    let r := castRay gridLower (5/2) (3/2) 1 0 16
    let tx := pointX (5/2) 1 25 - (truncQ (pointX (5/2) 1 25) : ℚ)
    let ty := pointY (3/2) 0 25 - (truncQ (pointY (3/2) 0 25) : ℚ)
    (('L' = '#' ∨ 'L' = 'L') →
      ((tx < 1 / 50 ∨ 49 / 50 < tx) → r.orientation = 0) ∧
      ((¬(tx < 1 / 50 ∨ 49 / 50 < tx) ∧ (ty < 1 / 50 ∨ 49 / 50 < ty)) →
        r.orientation = 1) ∧
      (r.boundary = true ↔
        (tx < 1 / 50 ∨ 49 / 50 < tx ∨ ty < 1 / 50 ∨ 49 / 50 < ty))) ∧
    ('L' = '#' → (r.corner = true ↔
      3 ≤ adjWallCount gridLower (truncQ (pointX (5/2) 1 25))
        (truncQ (pointY (3/2) 0 25)))) ∧
    ('L' = 'L' → r.corner = false) ∧
    (('L' = 'P' ∨ 'L' = 'C') → r.boundary = true ∧ r.orientation = 0) :=
  wall_hit_classification gridLower (5/2) (3/2) 1 0 16 25 'L' (by decide)
    (by with_unfolding_all decide) (by with_unfolding_all decide)
    (by with_unfolding_all decide) (by decide)

/-- C3 counterexample: the destination cell `(7, 2)` of the map holds a
LowerWall tile, yet the move from `(7.5, 3.1)` to the candidate
`(7.5, 2.8)` is committed (the position changes), because the code only
rejects `'#'` and `'P'`. -/
theorem lower_wall_move_cex :
    cellAt MAP 7 2 = some 'L' ∧
    truncQ (15/2 : ℚ) = 7 ∧ truncQ (14/5 : ℚ) = 2 ∧
    tryMove MAP (15/2) (31/10) (15/2) (14/5) = (15/2, 14/5) ∧
    (14/5 : ℚ) ≠ (31/10 : ℚ) := by
  refine ⟨?_, ?_, ?_, ?_, ?_⟩ <;> with_unfolding_all decide

/-- C3 (amended): a translation is committed if and only if the truncated
destination cell is within grid bounds and holds a tile other than Wall
and Pillar — `Open`, `LowerWall`, `CornerDecoration` (and the door tile)
are all accepted; when the translation is rejected the position is
returned bit-for-bit unchanged. -/
theorem move_commit_rule (g : Grid) (px py nx ny : ℚ) :
    (tryMove g px py nx ny = (nx, ny) ∨ tryMove g px py nx ny = (px, py)) ∧
    ((∃ ch, cellAt g (truncQ nx) (truncQ ny) = some ch ∧ ch ≠ '#' ∧ ch ≠ 'P') →
      tryMove g px py nx ny = (nx, ny)) ∧
    ((cellAt g (truncQ nx) (truncQ ny) = none ∨
        cellAt g (truncQ nx) (truncQ ny) = some '#' ∨
        cellAt g (truncQ nx) (truncQ ny) = some 'P') →
      tryMove g px py nx ny = (px, py)) := by
  refine ⟨?_, ?_, ?_⟩
  · rw [tryMove]
    split_ifs
    · exact Or.inl rfl
    · exact Or.inr rfl
  · rintro ⟨ch, hch, h1, h2⟩
    rw [tryMove, hch]
    have hp : movePassable (some ch) = true := by
      simp [movePassable, h1, h2]
    rw [if_pos hp]
  · rintro (hc | hc | hc) <;> rw [tryMove, hc] <;> simp [movePassable]

/-- C3 witness: the commit rule instantiated at a concrete open-floor
move on the game map: the destination cell holds `'.'`, so the move is
committed. -/
theorem move_commit_rule_witness : tryMove MAP 2 2 (5/2) 2 = (5/2, 2) :=
  (move_commit_rule MAP 2 2 (5/2) 2).2.1
    ⟨'.', by with_unfolding_all decide, by decide, by decide⟩

lemma getD_map_rows (f : List Char → List Char) (hf : f [] = [])
    (l : List (List Char)) (i : ℕ) :
    (l.map f).getD i [] = f (l.getD i []) := by
  induction l generalizing i with
  | nil => simp [List.getD, hf]
  | cons r t ih =>
    cases i with
    | zero => rfl
    | succ j => simpa using ih j

lemma getD_map_chars (f : Char → Char) (hf : f ' ' = ' ')
    (row : List Char) (j : ℕ) :
    (row.map f).getD j ' ' = f (row.getD j ' ') := by
  induction row generalizing j with
  | nil => simp [List.getD, hf]
  | cons a t ih =>
    cases j with
    | zero => rfl
    | succ j2 => simpa using ih j2

lemma cellAt_eraseDoors (g : Grid) (x y : ℤ) :
    cellAt (eraseDoors g) x y =
      (cellAt g x y).map (fun ch => if ch == 'D' then '.' else ch) := by
  have hW : gridW (eraseDoors g) = gridW g := by
    unfold gridW eraseDoors
    cases g <;> simp
  have hH : gridH (eraseDoors g) = gridH g := by
    unfold gridH eraseDoors
    simp
  rw [cellAt, cellAt, hW, hH]
  split_ifs with h
  · rw [Option.map_some']
    congr 1
    rw [show eraseDoors g = g.map
      (fun row => row.map (fun ch => if ch == 'D' then '.' else ch)) from rfl]
    rw [getD_map_rows _ rfl, getD_map_chars _ rfl]
  · rfl

lemma blockingChar_dmap (ch : Char) :
    blockingChar (if ch == 'D' then '.' else ch) = blockingChar ch := by
  by_cases h : ch = 'D'
  · subst h
    rfl
  · rw [if_neg (by simpa using h)]

lemma dmap_of_blocking {ch : Char} (hb : blockingChar ch = true) :
    (if ch == 'D' then '.' else ch) = ch := by
  by_cases h : ch = 'D'
  · subst h
    exact absurd hb (by decide)
  · rw [if_neg (by simpa using h)]

lemma adjWallCount_eraseDoors (g : Grid) (mx my : ℤ) :
    adjWallCount (eraseDoors g) mx my = adjWallCount g mx my := by
  unfold adjWallCount
  congr 1
  apply List.filter_congr
  intro p _
  rw [cellAt_eraseDoors]
  cases hc : cellAt g (mx + p.1) (my + p.2) with
  | none => rfl
  | some ch =>
    rw [Option.map_some']
    by_cases h : ch = 'D'
    · subst h
      simp
    · rw [if_neg (by simpa using h)]

lemma classifyHit_eraseDoors (g : Grid) (d rx ry : ℚ) (mx my : ℤ) (ch : Char) :
    classifyHit (eraseDoors g) d rx ry mx my ch = classifyHit g d rx ry mx my ch := by
  simp only [classifyHit, adjWallCount_eraseDoors]

lemma marchAux_eraseDoors (g : Grid) (px py c s maxR : ℚ) :
    ∀ fuel d, marchAux (eraseDoors g) px py c s maxR fuel d =
      marchAux g px py c s maxR fuel d := by
  intro fuel
  induction fuel with
  | zero => intro d; rfl
  | succ fuel ih =>
    intro d
    simp only [marchAux]
    split_ifs with hd
    · rw [cellAt_eraseDoors]
      cases hc : cellAt g (truncQ (px + c * (d + stepSize)))
          (truncQ (py + s * (d + stepSize))) with
      | none => rfl
      | some ch =>
        rw [Option.map_some']
        show (if blockingChar (if ch == 'D' then '.' else ch) = true then
            classifyHit (eraseDoors g) (d + stepSize) (px + c * (d + stepSize))
              (py + s * (d + stepSize)) (truncQ (px + c * (d + stepSize)))
              (truncQ (py + s * (d + stepSize))) (if ch == 'D' then '.' else ch)
          else marchAux (eraseDoors g) px py c s maxR fuel (d + stepSize)) =
          (if blockingChar ch = true then
            classifyHit g (d + stepSize) (px + c * (d + stepSize))
              (py + s * (d + stepSize)) (truncQ (px + c * (d + stepSize)))
              (truncQ (py + s * (d + stepSize))) ch
          else marchAux g px py c s maxR fuel (d + stepSize))
        rw [blockingChar_dmap]
        by_cases hb : blockingChar ch = true
        · rw [if_pos hb, if_pos hb, dmap_of_blocking hb, classifyHit_eraseDoors]
        · rw [if_neg hb, if_neg hb]
          exact ih (d + stepSize)
    · rfl

lemma tryMove_eraseDoors (g : Grid) (px py nx ny : ℚ) :
    tryMove (eraseDoors g) px py nx ny = tryMove g px py nx ny := by
  rw [tryMove, tryMove, cellAt_eraseDoors]
  cases hc : cellAt g (truncQ nx) (truncQ ny) with
  | none => rfl
  | some ch =>
    rw [Option.map_some']
    by_cases h : ch = 'D'
    · subst h
      rfl
    · have hdm : (if ch == 'D' then '.' else ch) = ch := by
        rw [if_neg (by simpa using h)]
      rw [hdm]

/-- C10: the grid holds the door tile `'D'` (at cell `(9, 4)`), a sixth
symbol beyond the specified five kinds; substituting open floor for every
door changes no marched ray (the marcher passes through doors exactly as
through `Open`) and no movement resolution, and a move whose truncated
destination cell holds `'D'` is always committed. -/
theorem door_tile_transparent :
    cellAt MAP 9 4 = some 'D' ∧
    (∀ (g : Grid) (px py c s maxR : ℚ),
      castRay (eraseDoors g) px py c s maxR = castRay g px py c s maxR) ∧
    (∀ (g : Grid) (px py nx ny : ℚ),
      tryMove (eraseDoors g) px py nx ny = tryMove g px py nx ny) ∧
    (∀ (g : Grid) (px py nx ny : ℚ),
      cellAt g (truncQ nx) (truncQ ny) = some 'D' →
      tryMove g px py nx ny = (nx, ny)) := by
  refine ⟨by with_unfolding_all decide, ?_, tryMove_eraseDoors, ?_⟩
  · intro g px py c s maxR
    rw [castRay, castRay]
    exact marchAux_eraseDoors g px py c s maxR _ 0
  · intro g px py nx ny hD
    rw [tryMove, hD, if_pos]
    rfl

/-- C10 witness: door transparency and passability at the actual door of
the game map. -/
theorem door_tile_transparent_witness :
    castRay (eraseDoors MAP) 2 2 1 0 16 = castRay MAP 2 2 1 0 16 ∧
    tryMove MAP (17/2) (9/2) (19/2) (9/2) = (19/2, 9/2) :=
  ⟨door_tile_transparent.2.1 MAP 2 2 1 0 16,
   door_tile_transparent.2.2.2 MAP (17/2) (9/2) (19/2) (9/2)
     (by with_unfolding_all decide)⟩

lemma truncQ_of_nonneg {q : ℚ} (h : 0 ≤ q) : truncQ q = ⌊q⌋ :=
  if_neg (not_lt.2 h)

/-- C5 counterexample: a player adjacent to a lower wall and facing it
(the march on `gridLower` hits the `'L'` cell at distance `1/2`); with a
20-row view and that corrected distance, the clamped lower-wall span
equals the clamped full-wall span instead of being strictly smaller. -/
theorem adjacent_lower_wall_span_cex :
    (castRay gridLower (5/2) (3/2) 1 0 16).lower = true ∧
    (castRay gridLower (5/2) (3/2) 1 0 16).dist = 1/2 ∧
    projectSpan 20 true (1/2) = projectSpan 20 false (1/2) ∧
    ¬((projectSpan 20 true (1/2)).2 - (projectSpan 20 true (1/2)).1 <
      (projectSpan 20 false (1/2)).2 - (projectSpan 20 false (1/2)).1) := by
  refine ⟨?_, ?_, ?_, ?_⟩ <;> with_unfolding_all decide

/-- C5 (amended): the lower-wall span is strictly smaller than the
full-wall span at the same corrected distance whenever the full-wall
projection is unclamped, i.e. when `2 ≤ viewHeight / d ≤ viewHeight/2 - 1`;
at adjacency (small `d`) both spans clamp to the full view and coincide. -/
theorem lower_wall_span_strict (vh : ℕ) (d : ℚ) (h2 : 2 ≤ (vh : ℚ) / d)
    (h3 : (vh : ℚ) / d ≤ (vh : ℚ) / 2 - 1) :
    (projectSpan vh true d).2 - (projectSpan vh true d).1 <
      (projectSpan vh false d).2 - (projectSpan vh false d).1 := by
  set H := (vh : ℚ) / d with hH
  have f1 : (1 : ℚ) ≤ (vh : ℚ) / 2 - H := by linarith
  have f2 : (vh : ℚ) / 2 - H ≤ (vh : ℚ) / 2 - H * (1 / 2) := by linarith
  have f3 : (vh : ℚ) / 2 + H * (1 / 2) ≤ ((vh : ℚ) / 2 + H) - 1 := by linarith
  have f4 : (vh : ℚ) / 2 + H ≤ (vh : ℚ) - 1 := by linarith
  have g1 : (0 : ℚ) ≤ (vh : ℚ) / 2 - H := by linarith
  have g2 : (0 : ℚ) ≤ (vh : ℚ) / 2 - H * (1 / 2) := by linarith
  have g3 : (0 : ℚ) ≤ (vh : ℚ) / 2 + H * (1 / 2) := by linarith
  have g4 : (0 : ℚ) ≤ (vh : ℚ) / 2 + H := by linarith
  show (min ((vh : ℤ) - 1) (truncQ ((vh : ℚ) / 2 + H * (1 / 2)))) -
      (max 0 (truncQ ((vh : ℚ) / 2 - H * (1 / 2)))) <
    (min ((vh : ℤ) - 1) (truncQ ((vh : ℚ) / 2 + H))) -
      (max 0 (truncQ ((vh : ℚ) / 2 - H)))
  rw [truncQ_of_nonneg g2, truncQ_of_nonneg g3, truncQ_of_nonneg g1,
    truncQ_of_nonneg g4]
  have c1 : (0 : ℤ) ≤ ⌊(vh : ℚ) / 2 - H⌋ := Int.le_floor.mpr (by push_cast; linarith)
  have c2 : (0 : ℤ) ≤ ⌊(vh : ℚ) / 2 - H * (1 / 2)⌋ :=
    Int.le_floor.mpr (by push_cast; linarith)
  have c3 : ⌊(vh : ℚ) / 2 + H⌋ ≤ (vh : ℤ) - 1 := by
    have he : ((vh : ℤ) - 1 : ℤ) = ⌊((vh : ℚ) - 1)⌋ := by
      rw [show ((vh : ℚ) - 1) = (((vh : ℤ) - 1 : ℤ) : ℚ) from by push_cast; ring,
        Int.floor_intCast]
    rw [he]
    exact Int.floor_mono f4
  have c4 : ⌊(vh : ℚ) / 2 + H * (1 / 2)⌋ ≤ (vh : ℤ) - 1 :=
    le_trans (Int.floor_mono (by linarith)) c3
  rw [max_eq_right c1, max_eq_right c2, min_eq_right c3, min_eq_right c4]
  have k1 : ⌊(vh : ℚ) / 2 + H * (1 / 2)⌋ ≤ ⌊(vh : ℚ) / 2 + H⌋ - 1 := by
    have hmono := Int.floor_mono f3
    rwa [show ((vh : ℚ) / 2 + H) - 1 = ((vh : ℚ) / 2 + H) - ((1 : ℤ) : ℚ) from
      by norm_num, Int.floor_sub_int] at hmono
  have k2 : ⌊(vh : ℚ) / 2 - H⌋ ≤ ⌊(vh : ℚ) / 2 - H * (1 / 2)⌋ := Int.floor_mono f2
  omega

/-- C5 witness: at view height 20 and corrected distance 4 the lower-wall
span (5 rows) is strictly smaller than the full-wall span (10 rows). -/
theorem lower_wall_span_strict_witness :
    (projectSpan 20 true 4).2 - (projectSpan 20 true 4).1 <
      (projectSpan 20 false 4).2 - (projectSpan 20 false 4).1 :=
  lower_wall_span_strict 20 4 (by norm_num) (by norm_num)

lemma castRay_dist_lb (g : Grid) (px py c s maxR : ℚ)
    (hm : stepSize ≤ maxR) : stepSize ≤ (castRay g px py c s maxR).dist := by
  rcases castRay_char g px py c s maxR with h | h
  · obtain ⟨m, hm1, _, _, _, hm5⟩ := h
    rw [hm5, hitResultAt]
    cases hcell : stepCell g px py c s m with
    | none => exact hm
    | some ch =>
      show stepSize ≤ (classifyHit g ((m : ℚ) * stepSize) (pointX px c m)
        (pointY py s m) (truncQ (pointX px c m)) (truncQ (pointY py s m))
        ch).dist
      rw [classifyHit_dist]
      have := mul_step_mono (show 1 ≤ m from hm1)
      simpa using this
  · obtain ⟨_, m, hm2, hm3⟩ := h
    rw [hm3]
    exact le_trans hm hm2

lemma correctedAngleQ_bound {x n : ℕ} (hn : 0 < n) (hx : x < n) :
    |correctedAngleQ x n| ≤ 35 := by
  rw [abs_le]
  unfold correctedAngleQ
  have hn' : (0 : ℚ) < (n : ℚ) := by exact_mod_cast hn
  have h0 : (0 : ℚ) ≤ (x : ℚ) / (n : ℚ) := by positivity
  have h1 : (x : ℚ) / (n : ℚ) < 1 := by
    rw [div_lt_one hn']
    exact_mod_cast hx
  constructor <;> nlinarith

lemma fisheye_pos {x n : ℕ} (hn : 0 < n) (hx : x < n) :
    0 < fisheyeCorrection x n := by
  unfold fisheyeCorrection
  apply Real.cos_pos_of_mem_Ioo
  have hb : |((correctedAngleQ x n : ℚ) : ℝ)| ≤ 35 := by
    have := correctedAngleQ_bound hn hx
    exact_mod_cast this
  rw [abs_le] at hb
  have hp := Real.pi_pos
  constructor
  · have h55 : (0 : ℝ) < ((correctedAngleQ x n : ℚ) : ℝ) + 90 := by linarith
    nlinarith [mul_pos hp h55]
  · have h55 : (0 : ℝ) < 90 - ((correctedAngleQ x n : ℚ) : ℝ) := by linarith
    nlinarith [mul_pos hp h55]

/-- C8 counterexample: at column 0 the angular offset from the view
direction is exactly `-FOV/2 = -35`, not strictly less than `FOV/2` in
absolute value. -/
theorem column_angle_bound_cex : ¬(|correctedAngleQ 0 1000| < 35) := by
  rw [correctedAngleQ]
  norm_num

/-- C8 (amended): every rendered column's angular offset from the view
direction is at most `FOV/2 = 35` degrees in absolute value (equality at
column 0); since `35° < 90°` the fisheye correction cosine is still
strictly positive, and because a marched distance is at least one
`stepSize` (when the limit is the code's `DEPTH = 16`), the corrected
distance used as projection divisor is strictly positive. -/
theorem column_angle_fisheye_pos (x n : ℕ) (hn : 0 < n) (hx : x < n) :
    |correctedAngleQ x n| ≤ 35 ∧ 0 < fisheyeCorrection x n ∧
    ∀ (g : Grid) (px py c s : ℚ),
      0 < ((castRay g px py c s 16).dist : ℝ) * fisheyeCorrection x n := by
  refine ⟨correctedAngleQ_bound hn hx, fisheye_pos hn hx, ?_⟩
  intro g px py c s
  apply mul_pos _ (fisheye_pos hn hx)
  have h1 := castRay_dist_lb g px py c s 16 (by norm_num [stepSize])
  have h0 : (0 : ℚ) < (castRay g px py c s 16).dist :=
    lt_of_lt_of_le stepSize_pos h1
  exact_mod_cast h0

/-- C8 witness: the amended bound at column 0 of a 1000-column frame, and
the positive corrected distance of a concrete ray on the game map. -/
theorem column_angle_fisheye_pos_witness :
    |correctedAngleQ 0 1000| ≤ 35 ∧ 0 < fisheyeCorrection 0 1000 ∧
    0 < ((castRay MAP 2 2 1 0 16).dist : ℝ) * fisheyeCorrection 0 1000 :=
  ⟨(column_angle_fisheye_pos 0 1000 (by decide) (by decide)).1,
   (column_angle_fisheye_pos 0 1000 (by decide) (by decide)).2.1,
   (column_angle_fisheye_pos 0 1000 (by decide) (by decide)).2.2 MAP 2 2 1 0⟩

/-- The scan resolves to the first success position (killing exactly that
enemy and scoring `100 * (type + 1)`), or leaves everything unchanged when
no considered enemy's draw succeeds.  `i` is the index of the next unused
random draw. -/
lemma shootScan_char (px py ang : ℝ) (rng : ℕ → ℝ) :
    ∀ (es : List Enemy) (i : ℕ),
    (∃ j e, es.get? j = some e ∧ considered px py ang e ∧
        rng (i + consideredCount px py ang (es.take j)) < hitChance px py e ∧
        (∀ j2 e2, j2 < j → es.get? j2 = some e2 →
          ¬(considered px py ang e2 ∧
            rng (i + consideredCount px py ang (es.take j2)) <
              hitChance px py e2)) ∧
        shootScan px py ang rng es i =
          (es.set j { e with alive := false }, 100 * ((e.type : ℤ) + 1))) ∨
    ((∀ j e, es.get? j = some e →
        ¬(considered px py ang e ∧
          rng (i + consideredCount px py ang (es.take j)) <
            hitChance px py e)) ∧
      shootScan px py ang rng es i = (es, 0)) := by
  intro es
  induction es with
  | nil =>
    intro i
    right
    refine ⟨?_, rfl⟩
    intro j e h
    simp at h
  | cons e rest ih =>
    intro i
    by_cases hc : considered px py ang e
    · by_cases hr : rng i < hitChance px py e
      · left
        refine ⟨0, e, rfl, hc, hr, ?_, ?_⟩
        · intro j2 e2 h2
          omega
        · simp only [shootScan]
          rw [if_pos hc.1, if_pos hc.2, if_pos hr]
          rfl
      · have hrec : shootScan px py ang rng (e :: rest) i =
            ((e :: (shootScan px py ang rng rest (i + 1)).1),
              (shootScan px py ang rng rest (i + 1)).2) := by
          simp only [shootScan]
          rw [if_pos hc.1, if_pos hc.2, if_neg hr]
        have hidx : ∀ j,
            i + consideredCount px py ang ((e :: rest).take (j + 1)) =
              (i + 1) + consideredCount px py ang (rest.take j) := by
          intro j
          rw [List.take_succ_cons]
          simp only [consideredCount]
          rw [if_pos hc]
          omega
        rcases ih (i + 1) with h | h
        · left
          obtain ⟨j, e2, hj1, hj2, hj3, hj4, hj5⟩ := h
          refine ⟨j + 1, e2, by simpa using hj1, hj2, ?_, ?_, ?_⟩
          · rw [hidx j]
            exact hj3
          · intro j2 e3 hlt hget
            cases j2 with
            | zero =>
              have he : e = e3 := by simpa using hget
              subst he
              rintro ⟨-, hr2⟩
              exact hr (by simpa using hr2)
            | succ j3 =>
              have hget2 : rest.get? j3 = some e3 := by simpa using hget
              intro hcon
              apply hj4 j3 e3 (by omega) hget2
              rwa [hidx j3] at hcon
          · rw [hrec, hj5]
            rfl
        · right
          obtain ⟨hall, hs⟩ := h
          refine ⟨?_, by rw [hrec, hs]⟩
          intro j e3 hget
          cases j with
          | zero =>
            have he : e = e3 := by simpa using hget
            subst he
            rintro ⟨-, hr2⟩
            exact hr (by simpa using hr2)
          | succ j3 =>
            have hget2 : rest.get? j3 = some e3 := by simpa using hget
            intro hcon
            apply hall j3 e3 hget2
            rwa [hidx j3] at hcon
    · have hrec : shootScan px py ang rng (e :: rest) i =
          ((e :: (shootScan px py ang rng rest i).1),
            (shootScan px py ang rng rest i).2) := by
        by_cases ha : e.alive = true
        · have hv : ¬ validTarget px py ang e := fun hv => hc ⟨ha, hv⟩
          simp only [shootScan]
          rw [if_pos ha, if_neg hv]
        · simp only [shootScan]
          rw [if_neg ha]
      have hidx : ∀ j,
          i + consideredCount px py ang ((e :: rest).take (j + 1)) =
            i + consideredCount px py ang (rest.take j) := by
        intro j
        rw [List.take_succ_cons]
        simp only [consideredCount]
        rw [if_neg hc]
        omega
      rcases ih i with h | h
      · left
        obtain ⟨j, e2, hj1, hj2, hj3, hj4, hj5⟩ := h
        refine ⟨j + 1, e2, by simpa using hj1, hj2, ?_, ?_, ?_⟩
        · rw [hidx j]
          exact hj3
        · intro j2 e3 hlt hget
          cases j2 with
          | zero =>
            have he : e = e3 := by simpa using hget
            subst he
            rintro ⟨hcon, -⟩
            exact hc hcon
          | succ j3 =>
            have hget2 : rest.get? j3 = some e3 := by simpa using hget
            intro hcon
            apply hj4 j3 e3 (by omega) hget2
            rwa [hidx j3] at hcon
        · rw [hrec, hj5]
          rfl
      · right
        obtain ⟨hall, hs⟩ := h
        refine ⟨?_, by rw [hrec, hs]⟩
        intro j e3 hget
        cases j with
        | zero =>
          have he : e = e3 := by simpa using hget
          subst he
          rintro ⟨hcon, -⟩
          exact hc hcon
        | succ j3 =>
          have hget2 : rest.get? j3 = some e3 := by simpa using hget
          intro hcon
          apply hall j3 e3 hget2
          rwa [hidx j3] at hcon

/-- C4: a shot with ammo available runs the scan on the enemy list in
enumeration order; the updated enemy list and score delta are exactly
`shootScan`'s output, and that output either kills the first success
position `j` — a living enemy within `FOV/2` of the facing and within
range whose single uniform draw beats
`(1 - dist/16 * 0.8) * classFactor` — adding exactly
`100 * (type + 1)` to the score, or changes nothing when no considered
enemy succeeds; in particular at most one enemy dies per shot. -/
theorem shot_resolution_first_success (st : State) (rng : ℕ → ℝ)
    (hammo : 0 < st.ammo) :
    ((stepIntent st rng Intent.shoot).enemies,
      (stepIntent st rng Intent.shoot).score - st.score) =
      shootScan (st.px : ℝ) (st.py : ℝ) (st.angle : ℝ) rng st.enemies 0 ∧
    ((∃ j e, st.enemies.get? j = some e ∧
        targetSuccess (st.px : ℝ) (st.py : ℝ) (st.angle : ℝ) rng
          st.enemies j ∧
        (∀ j2, j2 < j → ¬targetSuccess (st.px : ℝ) (st.py : ℝ)
          (st.angle : ℝ) rng st.enemies j2) ∧
        (stepIntent st rng Intent.shoot).enemies =
          st.enemies.set j { e with alive := false } ∧
        (stepIntent st rng Intent.shoot).score =
          st.score + 100 * ((e.type : ℤ) + 1)) ∨
      ((∀ j, ¬targetSuccess (st.px : ℝ) (st.py : ℝ) (st.angle : ℝ) rng
          st.enemies j) ∧
        (stepIntent st rng Intent.shoot).enemies = st.enemies ∧
        (stepIntent st rng Intent.shoot).score = st.score)) := by
  have hout : stepIntent st rng Intent.shoot =
      { st with ammo := st.ammo - 1,
                score := st.score + (shootScan (st.px : ℝ) (st.py : ℝ)
                  (st.angle : ℝ) rng st.enemies 0).2,
                enemies := (shootScan (st.px : ℝ) (st.py : ℝ)
                  (st.angle : ℝ) rng st.enemies 0).1 } := by
    simp only [stepIntent]
    rw [if_pos hammo]
  constructor
  · rw [hout]
    show ((shootScan (st.px : ℝ) (st.py : ℝ) (st.angle : ℝ) rng
        st.enemies 0).1,
      st.score + (shootScan (st.px : ℝ) (st.py : ℝ) (st.angle : ℝ) rng
        st.enemies 0).2 - st.score) = _
    rw [show st.score + (shootScan (st.px : ℝ) (st.py : ℝ) (st.angle : ℝ)
      rng st.enemies 0).2 - st.score = (shootScan (st.px : ℝ) (st.py : ℝ)
      (st.angle : ℝ) rng st.enemies 0).2 from by ring]
  · rcases shootScan_char (st.px : ℝ) (st.py : ℝ) (st.angle : ℝ) rng
      st.enemies 0 with h | h
    · left
      obtain ⟨j, e, h1, h2, h3, h4, h5⟩ := h
      refine ⟨j, e, h1, ⟨e, h1, h2, by simpa using h3⟩, ?_, ?_, ?_⟩
      · rintro j2 hlt ⟨e2, hg2, hc2, hr2⟩
        exact h4 j2 e2 hlt hg2 ⟨hc2, by simpa using hr2⟩
      · rw [hout]
        show (shootScan (st.px : ℝ) (st.py : ℝ) (st.angle : ℝ) rng
          st.enemies 0).1 = _
        rw [h5]
      · rw [hout]
        show st.score + (shootScan (st.px : ℝ) (st.py : ℝ) (st.angle : ℝ)
          rng st.enemies 0).2 = _
        rw [h5]
    · right
      obtain ⟨hall, h5⟩ := h
      refine ⟨?_, ?_, ?_⟩
      · rintro j ⟨e, hg, hc2, hr2⟩
        exact hall j e hg ⟨hc2, by simpa using hr2⟩
      · rw [hout]
        show (shootScan (st.px : ℝ) (st.py : ℝ) (st.angle : ℝ) rng
          st.enemies 0).1 = _
        rw [h5]
      · rw [hout]
        show st.score + (shootScan (st.px : ℝ) (st.py : ℝ) (st.angle : ℝ)
          rng st.enemies 0).2 = _
        rw [h5]
        ring

/-- C4 witness: the resolution applied to a concrete full-ammo state
(with an empty roster, so the no-success branch is forced). -/
theorem shot_resolution_first_success_witness :
    ((stepIntent stateEmpty rng0 Intent.shoot).enemies,
      (stepIntent stateEmpty rng0 Intent.shoot).score - stateEmpty.score) =
      shootScan (stateEmpty.px : ℝ) (stateEmpty.py : ℝ)
        (stateEmpty.angle : ℝ) rng0 stateEmpty.enemies 0 ∧
    ((∃ j e, stateEmpty.enemies.get? j = some e ∧
        targetSuccess (stateEmpty.px : ℝ) (stateEmpty.py : ℝ)
          (stateEmpty.angle : ℝ) rng0 stateEmpty.enemies j ∧
        (∀ j2, j2 < j → ¬targetSuccess (stateEmpty.px : ℝ)
          (stateEmpty.py : ℝ) (stateEmpty.angle : ℝ) rng0
          stateEmpty.enemies j2) ∧
        (stepIntent stateEmpty rng0 Intent.shoot).enemies =
          stateEmpty.enemies.set j { e with alive := false } ∧
        (stepIntent stateEmpty rng0 Intent.shoot).score =
          stateEmpty.score + 100 * ((e.type : ℤ) + 1)) ∨
      ((∀ j, ¬targetSuccess (stateEmpty.px : ℝ) (stateEmpty.py : ℝ)
          (stateEmpty.angle : ℝ) rng0 stateEmpty.enemies j) ∧
        (stepIntent stateEmpty rng0 Intent.shoot).enemies =
          stateEmpty.enemies ∧
        (stepIntent stateEmpty rng0 Intent.shoot).score =
          stateEmpty.score)) :=
  shot_resolution_first_success stateEmpty rng0 (by norm_num [stateEmpty])

lemma shootScan_score_nonneg (px py ang : ℝ) (rng : ℕ → ℝ) :
    ∀ (es : List Enemy) (i : ℕ), 0 ≤ (shootScan px py ang rng es i).2 := by
  intro es
  induction es with
  | nil =>
    intro i
    show (0 : ℤ) ≤ 0
    exact le_refl 0
  | cons e rest ih =>
    intro i
    simp only [shootScan]
    split_ifs with h1 h2 h3
    · show (0 : ℤ) ≤ 100 * ((e.type : ℤ) + 1)
      positivity
    · exact ih (i + 1)
    · exact ih i
    · exact ih i

/-- C7: a shot with no ammo is a complete no-op on the state; a shot with
ammo decrements ammo by exactly one; under every intent ammo stays
non-negative and the score never decreases. -/
theorem shoot_ammo_guard (st : State) (rng : ℕ → ℝ) :
    (st.ammo = 0 → stepIntent st rng Intent.shoot = st) ∧
    (0 < st.ammo → (stepIntent st rng Intent.shoot).ammo = st.ammo - 1) ∧
    (∀ it, 0 ≤ st.ammo → 0 ≤ (stepIntent st rng it).ammo) ∧
    (∀ it, st.score ≤ (stepIntent st rng it).score) := by
  refine ⟨?_, ?_, ?_, ?_⟩
  · intro h0
    simp only [stepIntent]
    rw [if_neg (by omega)]
  · intro hpos
    simp only [stepIntent]
    rw [if_pos hpos]
  · intro it h0
    cases it with
    | move dx dy => exact h0
    | turn dA => exact h0
    | shoot =>
      simp only [stepIntent]
      split_ifs with hpos
      · show (0 : ℤ) ≤ st.ammo - 1
        omega
      · exact h0
  · intro it
    cases it with
    | move dx dy => exact le_of_eq rfl
    | turn dA => exact le_of_eq rfl
    | shoot =>
      simp only [stepIntent]
      split_ifs with hpos
      · show st.score ≤ st.score + (shootScan (st.px : ℝ) (st.py : ℝ)
          (st.angle : ℝ) rng st.enemies 0).2
        have := shootScan_score_nonneg (st.px : ℝ) (st.py : ℝ)
          (st.angle : ℝ) rng st.enemies 0
        omega
      · exact le_of_eq rfl

/-- C7 witness: the guard applied to a state with zero ammo and to a
state with three rounds. -/
theorem shoot_ammo_guard_witness :
    stepIntent ⟨2, 2, 0, 100, 0, 0, []⟩ rng0 Intent.shoot =
      ⟨2, 2, 0, 100, 0, 0, []⟩ ∧
    (stepIntent ⟨2, 2, 0, 100, 3, 0, []⟩ rng0 Intent.shoot).ammo =
      (⟨2, 2, 0, 100, 3, 0, []⟩ : State).ammo - 1 ∧
    0 ≤ (stepIntent ⟨2, 2, 0, 100, 3, 0, []⟩ rng0 Intent.shoot).ammo ∧
    (⟨2, 2, 0, 100, 3, 0, []⟩ : State).score ≤
      (stepIntent ⟨2, 2, 0, 100, 3, 0, []⟩ rng0 Intent.shoot).score :=
  ⟨(shoot_ammo_guard ⟨2, 2, 0, 100, 0, 0, []⟩ rng0).1 rfl,
   (shoot_ammo_guard ⟨2, 2, 0, 100, 3, 0, []⟩ rng0).2.1 (by norm_num),
   (shoot_ammo_guard ⟨2, 2, 0, 100, 3, 0, []⟩ rng0).2.2.1 Intent.shoot
     (by norm_num),
   (shoot_ammo_guard ⟨2, 2, 0, 100, 3, 0, []⟩ rng0).2.2.2 Intent.shoot⟩

/-- The scan preserves the roster length and every entry's position and
class, and never revives an enemy. -/
lemma shootScan_preserve (px py ang : ℝ) (rng : ℕ → ℝ) :
    ∀ (es : List Enemy) (i : ℕ),
      (shootScan px py ang rng es i).1.length = es.length ∧
      ∀ j e e2, es.get? j = some e →
        (shootScan px py ang rng es i).1.get? j = some e2 →
        ((e2.alive = true → e.alive = true) ∧ e2.x = e.x ∧ e2.y = e.y ∧
          e2.type = e.type) := by
  intro es
  induction es with
  | nil =>
    intro i
    refine ⟨rfl, ?_⟩
    intro j e e2 h
    simp at h
  | cons e rest ih =>
    intro i
    simp only [shootScan]
    split_ifs with h1 h2 h3
    · refine ⟨by simp, ?_⟩
      intro j e1 e2 hget hget2
      cases j with
      | zero =>
        have he1 : e = e1 := by simpa using hget
        have he2 : { e with alive := false } = e2 := by simpa using hget2
        subst he1
        subst he2
        exact ⟨fun h => absurd h (by simp), rfl, rfl, rfl⟩
      | succ j2 =>
        have hg1 : rest.get? j2 = some e1 := by simpa using hget
        have hg2 : rest.get? j2 = some e2 := by simpa using hget2
        rw [hg1] at hg2
        have : e1 = e2 := by simpa using hg2
        subst this
        exact ⟨fun h => h, rfl, rfl, rfl⟩
    · refine ⟨by simpa using (ih (i + 1)).1, ?_⟩
      intro j e1 e2 hget hget2
      cases j with
      | zero =>
        have he1 : e = e1 := by simpa using hget
        have he2 : e = e2 := by simpa using hget2
        subst he1
        subst he2
        exact ⟨fun h => h, rfl, rfl, rfl⟩
      | succ j2 =>
        exact (ih (i + 1)).2 j2 e1 e2 (by simpa using hget)
          (by simpa using hget2)
    · refine ⟨by simpa using (ih i).1, ?_⟩
      intro j e1 e2 hget hget2
      cases j with
      | zero =>
        have he1 : e = e1 := by simpa using hget
        have he2 : e = e2 := by simpa using hget2
        subst he1
        subst he2
        exact ⟨fun h => h, rfl, rfl, rfl⟩
      | succ j2 =>
        exact (ih i).2 j2 e1 e2 (by simpa using hget) (by simpa using hget2)
    · refine ⟨by simpa using (ih i).1, ?_⟩
      intro j e1 e2 hget hget2
      cases j with
      | zero =>
        have he1 : e = e1 := by simpa using hget
        have he2 : e = e2 := by simpa using hget2
        subst he1
        subst he2
        exact ⟨fun h => h, rfl, rfl, rfl⟩
      | succ j2 =>
        exact (ih i).2 j2 e1 e2 (by simpa using hget) (by simpa using hget2)

/-- One intent preserves the roster length, every enemy's position and
class, and never revives an enemy. -/
lemma stepIntent_preserve (st : State) (rng : ℕ → ℝ) (it : Intent) :
    (stepIntent st rng it).enemies.length = st.enemies.length ∧
    ∀ j e e2, st.enemies.get? j = some e →
      (stepIntent st rng it).enemies.get? j = some e2 →
      ((e2.alive = true → e.alive = true) ∧ e2.x = e.x ∧ e2.y = e.y ∧
        e2.type = e.type) := by
  cases it with
  | move dx dy =>
    refine ⟨rfl, ?_⟩
    intro j e e2 h1 h2
    have h2e : st.enemies.get? j = some e2 := h2
    rw [h1] at h2e
    have : e = e2 := by simpa using h2e
    subst this
    exact ⟨fun h => h, rfl, rfl, rfl⟩
  | turn dA =>
    refine ⟨rfl, ?_⟩
    intro j e e2 h1 h2
    have h2e : st.enemies.get? j = some e2 := h2
    rw [h1] at h2e
    have : e = e2 := by simpa using h2e
    subst this
    exact ⟨fun h => h, rfl, rfl, rfl⟩
  | shoot =>
    by_cases hpos : 0 < st.ammo
    · have hst : (stepIntent st rng Intent.shoot).enemies =
          (shootScan (st.px : ℝ) (st.py : ℝ) (st.angle : ℝ) rng
            st.enemies 0).1 := by
        simp only [stepIntent]
        rw [if_pos hpos]
      rw [hst]
      exact shootScan_preserve (st.px : ℝ) (st.py : ℝ) (st.angle : ℝ) rng
        st.enemies 0
    · have hst : stepIntent st rng Intent.shoot = st := by
        simp only [stepIntent]
        rw [if_neg hpos]
      rw [hst]
      refine ⟨rfl, ?_⟩
      intro j e e2 h1 h2
      rw [h1] at h2
      have : e = e2 := by simpa using h2
      subst this
      exact ⟨fun h => h, rfl, rfl, rfl⟩

/-- C9: across any sequence of intents the enemy collection keeps its
length (no enemy is added or removed), every enemy keeps its position and
class, and the alive flag never returns to `true`: it flips from `true`
to `false` at most once, so indices and enumeration order are stable. -/
theorem enemy_alive_monotone (st : State) (ops : List (Intent × (ℕ → ℝ))) :
    (runIntents st ops).enemies.length = st.enemies.length ∧
    ∀ j e e2, st.enemies.get? j = some e →
      (runIntents st ops).enemies.get? j = some e2 →
      ((e2.alive = true → e.alive = true) ∧ e2.x = e.x ∧ e2.y = e.y ∧
        e2.type = e.type) := by
  induction ops generalizing st with
  | nil =>
    refine ⟨rfl, ?_⟩
    intro j e e2 h1 h2
    have h2e : st.enemies.get? j = some e2 := h2
    rw [h1] at h2e
    have : e = e2 := by simpa using h2e
    subst this
    exact ⟨fun h => h, rfl, rfl, rfl⟩
  | cons p rest ih =>
    have hrun : runIntents st (p :: rest) =
        runIntents (stepIntent st p.2 p.1) rest := rfl
    constructor
    · rw [hrun, (ih (stepIntent st p.2 p.1)).1,
        (stepIntent_preserve st p.2 p.1).1]
    · intro j e e2 h1 h2
      rw [hrun] at h2
      have hj : j < st.enemies.length := by
        by_contra hge
        rw [List.get?_eq_none.2 (by omega)] at h1
        exact absurd h1 (by simp)
      obtain ⟨em, hem⟩ : ∃ em,
          (stepIntent st p.2 p.1).enemies.get? j = some em := by
        cases hx : (stepIntent st p.2 p.1).enemies.get? j with
        | none =>
          rw [List.get?_eq_none, (stepIntent_preserve st p.2 p.1).1] at hx
          omega
        | some em => exact ⟨em, rfl⟩
      have s1 := (stepIntent_preserve st p.2 p.1).2 j e em h1 hem
      have s2 := (ih (stepIntent st p.2 p.1)).2 j em e2 hem h2
      exact ⟨fun h => s1.1 (s2.1 h), s2.2.1.trans s1.2.1,
        s2.2.2.1.trans s1.2.2.1, s2.2.2.2.trans s1.2.2.2⟩

/-- C9 witness: the invariant applied to the initial roster across a
concrete turn, read off at index 0. -/
theorem enemy_alive_monotone_witness :
    (runIntents initState [(Intent.turn 3, rng0)]).enemies.length =
      initState.enemies.length ∧
    (((⟨5, 3, true, 0⟩ : Enemy).alive = true →
        (⟨5, 3, true, 0⟩ : Enemy).alive = true) ∧
      (⟨5, 3, true, 0⟩ : Enemy).x = (⟨5, 3, true, 0⟩ : Enemy).x ∧
      (⟨5, 3, true, 0⟩ : Enemy).y = (⟨5, 3, true, 0⟩ : Enemy).y ∧
      (⟨5, 3, true, 0⟩ : Enemy).type = (⟨5, 3, true, 0⟩ : Enemy).type) :=
  ⟨(enemy_alive_monotone initState [(Intent.turn 3, rng0)]).1,
   (enemy_alive_monotone initState [(Intent.turn 3, rng0)]).2 0
     ⟨5, 3, true, 0⟩ ⟨5, 3, true, 0⟩ (by with_unfolding_all decide)
     (by with_unfolding_all decide)⟩

